import Mathlib

/-!
Verification of the core buffer-pool and scheduler contracts of the repository.

The buffer code (src/lib/storage/buffer) is embedded from the source files
helper.hpp, buffer_managed_ptr.hpp and buffer_manager.hpp.  The scheduler
implementation (AbstractTask, NodeQueueScheduler, Worker) is not part of the
source tree, only its tests are; those parts are modelled from the spec and
are marked as such in their doc comments.
-/

namespace HyriseSpec

/-! ## Page identity and sizing (helper.hpp) -/

/-- Number of page size classes on Linux (enum PageSizeType has 10 values
KiB4 .. MiB2 in helper.hpp). -/
def NUM_PAGE_SIZE_TYPES : Nat := 10

/-- OS page size on Linux, helper.hpp line 28. -/
def OS_PAGE_SIZE : Nat := 4096

/-- A page size class: index into the PageSizeType enum. -/
abbrev PageSizeType := Fin NUM_PAGE_SIZE_TYPES

/-- Number of bytes of a size class, helper.hpp bytes_for_size_type:
OS_PAGE_SIZE shifted left by the class index. -/
def bytes_for_size_type (size : PageSizeType) : Nat :=
  OS_PAGE_SIZE <<< size.val

/-- helper.hpp find_fitting_page_size_type: iterate over the enum values in
declaration order and return the first class whose byte size is at least the
requested size; the final Fail (no class fits) is modelled as none. -/
def find_fitting_page_size_type (bytes : Nat) : Option PageSizeType :=
  (List.finRange NUM_PAGE_SIZE_TYPES).find? (fun k => decide (bytes ≤ bytes_for_size_type k))

/-- PageID from helper.hpp: packed value of a valid bit, a size class and an
index.  Equality is syntactic on all fields (operator<=> = default). -/
structure PageID where
  valid : Bool
  size_type : PageSizeType
  index : Nat
deriving DecidableEq

/-- helper.hpp INVALID_PAGE_ID = PageID(MIN_PAGE_SIZE_TYPE, 0, false). -/
def INVALID_PAGE_ID : PageID := ⟨false, ⟨0, by decide⟩, 0⟩

/-! ## BufferManagedPtr (buffer_managed_ptr.hpp)

The C++ class is a template over the pointed-to type; none of the operations
embedded below depends on that type, so the embedding drops the parameter.
The byte offset is a std::ptrdiff_t, modelled as Int. -/

structure BufferManagedPtr where
  page_id : PageID
  offset : Int
deriving DecidableEq

/-- Resolution environment: for each page id, the raw address of the start of
the data of the frame the buffer manager resolves it to
(get_buffer_manager().get_page(page_id)->data.data()).  Raw addresses are
integers; the null pointer is address 0. -/
def BufferEnv : Type := PageID → Int

namespace BufferManagedPtr

/-- buffer_managed_ptr.hpp line 33, `BufferManagedPtr(pointer ptr = 0)` : the
raw-pointer argument is ignored and the members are set to
INVALID_PAGE_ID and offset 0. -/
def fromRaw (_ptr : Int) : BufferManagedPtr := ⟨INVALID_PAGE_ID, 0⟩

/-- get_pointer, lines 150-156: null (address 0) if the page id is INVALID,
otherwise the frame data address plus the byte offset. -/
def get_pointer (env : BufferEnv) (p : BufferManagedPtr) : Int :=
  if p.page_id = INVALID_PAGE_ID then 0 else env p.page_id + p.offset

/-- operator+ (line 76): same page id, offset increased by the argument. -/
def op_add (p : BufferManagedPtr) (n : Int) : BufferManagedPtr :=
  ⟨p.page_id, p.offset + n⟩

/-- operator- (line 80): same page id, offset decreased by the argument. -/
def op_sub (p : BufferManagedPtr) (n : Int) : BufferManagedPtr :=
  ⟨p.page_id, p.offset - n⟩

/-- operator+= (lines 84-87): the body is commented out, the operator
returns *this unchanged. -/
def plusEq (p : BufferManagedPtr) (_n : Int) : BufferManagedPtr := p

/-- operator-= (lines 89-92): the body is commented out, the operator
returns *this unchanged. -/
def minusEq (p : BufferManagedPtr) (_n : Int) : BufferManagedPtr := p

/-- pre-increment operator++ (lines 131-134): offset increased by one. -/
def inc (p : BufferManagedPtr) : BufferManagedPtr := ⟨p.page_id, p.offset + 1⟩

/-- pre-decrement operator-- (lines 141-144): offset decreased by one. -/
def dec (p : BufferManagedPtr) : BufferManagedPtr := ⟨p.page_id, p.offset - 1⟩

/-- explicit operator bool (lines 111-113): returns
page_id == INVALID_PAGE_ID || offset == 0, exactly as written in the source. -/
def op_bool (p : BufferManagedPtr) : Bool :=
  decide (p.page_id = INVALID_PAGE_ID) || decide (p.offset = 0)

/-- operator! (lines 72-74): true iff get() is the null pointer. -/
def op_not (env : BufferEnv) (p : BufferManagedPtr) : Bool :=
  decide (get_pointer env p = 0)

/-- operator== on two buffer-managed pointers (lines 123-125 and 163-166):
compares the two resolved raw addresses. -/
def op_eq (env : BufferEnv) (p q : BufferManagedPtr) : Bool :=
  decide (get_pointer env p = get_pointer env q)

/-- operator< (line 146): compares the two resolved raw addresses. -/
def op_lt (env : BufferEnv) (p q : BufferManagedPtr) : Bool :=
  decide (get_pointer env p < get_pointer env q)

/-- operator<= (lines 183-186): compares the two resolved raw addresses. -/
def op_le (env : BufferEnv) (p q : BufferManagedPtr) : Bool :=
  decide (get_pointer env p ≤ get_pointer env q)

end BufferManagedPtr

/-- A fixed sample environment placing every frame at address 4096. -/
def env0 : BufferEnv := fun _ => 4096

/-- A sample valid page id. -/
def samplePage : PageID := ⟨true, ⟨0, by decide⟩, 7⟩

/-! ## Task DAG scheduler

Modelled from the spec: the Task and scheduler implementation
(AbstractTask::schedule, set_as_predecessor_of, the Immediate scheduler and
the worker execution loop) is not under src, only its tests are.  The model
follows spec sections 3 (Task), 4.9 and 4.12: a task carries a predecessor
count and a successor list; schedule marks it SCHEDULED and is a no-op when
already scheduled; a task executes once all predecessors are done and it has
been scheduled; executing a task runs its payload, appends it to the
execution trace and eagerly executes every successor whose predecessor count
reaches zero and that is already scheduled. -/

/-- A task graph: predecessor and successor lists per task id, with the two
edge lists describing the same edge multiset (set_as_predecessor_of adds the
reverse edge and bumps the predecessor count in one call). -/
structure TaskGraph where
  preds : Nat → List Nat
  succs : Nat → List Nat
  edges_ok : ∀ t u, (succs t).count u = (preds u).count t

/-- Scheduler state: execution trace (tasks in completion order), remaining
predecessor count per task, scheduled flags and the shared payload state. -/
structure SchedState (σ : Type) where
  trace : List Nat
  count : Nat → Nat
  sched : Nat → Bool
  shared : σ

/-- Modelled from the spec: executing task t runs the payload, marks t done
(appends it to the trace), decrements each successor's predecessor count and
eagerly executes inline every successor that became ready and is scheduled.
Fuel bounds the depth of the inline chain. -/
def execTask {σ : Type} (g : TaskGraph) (payload : Nat → σ → σ) :
    Nat → Nat → SchedState σ → SchedState σ
  | 0, _, st => st
  | fuel+1, t, st =>
    if t ∈ st.trace then st
    else
      let st1 : SchedState σ :=
        ⟨st.trace ++ [t], fun u => st.count u - (g.succs t).count u,
         st.sched, payload t st.shared⟩
      (g.succs t).foldl
        (fun acc u =>
          if acc.count u = 0 ∧ acc.sched u = true ∧ u ∉ acc.trace then
            execTask g payload fuel u acc
          else acc)
        st1

/-- Modelled from the spec: schedule is a no-op on an already scheduled task;
otherwise it marks the task SCHEDULED and, if the task is ready, executes it
(together with its transitive ready successors) immediately. -/
def scheduleTask {σ : Type} (g : TaskGraph) (payload : Nat → σ → σ)
    (fuel : Nat) (st : SchedState σ) (t : Nat) : SchedState σ :=
  if st.sched t then st
  else
    let st1 : SchedState σ :=
      ⟨st.trace, st.count, fun u => if u = t then true else st.sched u, st.shared⟩
    if st1.count t = 0 ∧ t ∉ st1.trace then execTask g payload fuel t st1 else st1

/-- Initial scheduler state: nothing executed, predecessor counts from the
graph, nothing scheduled. -/
def initState {σ : Type} (g : TaskGraph) (s0 : σ) : SchedState σ :=
  ⟨[], fun u => (g.preds u).length, fun _ => false, s0⟩

/-- Run a sequence of schedule calls in order. -/
def runSchedules {σ : Type} (g : TaskGraph) (payload : Nat → σ → σ)
    (fuel : Nat) (order : List Nat) (st : SchedState σ) : SchedState σ :=
  order.foldl (scheduleTask g payload fuel) st

/-- Predecessor lists of the linear chain t1 -> t2 -> t3 from the scheduler
test (tasks 0, 1, 2). -/
def chainPreds : Nat → List Nat
  | 1 => [0]
  | 2 => [1]
  | _ => []

/-- Successor lists of the linear chain t1 -> t2 -> t3. -/
def chainSuccs : Nat → List Nat
  | 0 => [1]
  | 1 => [2]
  | _ => []

/-- The linear-chain task graph of scenario S1. -/
def chainGraph : TaskGraph where
  preds := chainPreds
  succs := chainSuccs
  edges_ok := by
    intro t u
    match t, u with
    | 0, 0 => rfl
    | 0, 1 => rfl
    | 0, 2 => rfl
    | 0, u+3 => simp [chainPreds, chainSuccs, List.count_singleton]
    | 1, 0 => rfl
    | 1, 1 => rfl
    | 1, 2 => rfl
    | 1, u+3 => simp [chainPreds, chainSuccs, List.count_singleton]
    | 2, 0 => rfl
    | 2, 1 => rfl
    | 2, 2 => rfl
    | 2, u+3 => simp [chainPreds, chainSuccs]
    | t+3, 0 => simp [chainPreds, chainSuccs]
    | t+3, 1 => simp [chainPreds, chainSuccs, List.count_singleton]
    | t+3, 2 => simp [chainPreds, chainSuccs, List.count_singleton]
    | t+3, u+3 => simp [chainPreds, chainSuccs]

/-- Payload of chain task t in scenario S1: CAS the shared counter from
expected value t to t+1; on mismatch leave the counter and record failure. -/
def casPayload (t : Nat) (s : Nat × Bool) : Nat × Bool :=
  if s.1 = t then (t + 1, s.2) else (s.1, false)

/-! ## Batch grouping (claim about schedule_and_wait_for_tasks)

Modelled from the spec: NodeQueueScheduler::_group_tasks is not under src.
Per spec section 4.12, a batch of independent tasks is transformed into
num_groups linear chains where task k becomes the predecessor of task
k+num_groups; the batch is then scheduled task by task in index order
(ready tasks, the chain heads, enter the queue in that order) and a single
worker pops the queue front and eagerly executes ready successors inline. -/

/-- Predecessor lists after grouping a batch of N independent tasks into g
chains: task u (for g <= u < N) has the single predecessor u - g. -/
def groupedPreds (g N : Nat) (u : Nat) : List Nat :=
  if g ≤ u ∧ u < N then [u - g] else []

/-- Successor lists after grouping: task t has the single successor t + g
when that index exists. -/
def groupedSuccs (g N : Nat) (t : Nat) : List Nat :=
  if t + g < N then [t + g] else []

/-- The grouped task graph. -/
def groupedGraph (g N : Nat) : TaskGraph where
  preds := groupedPreds g N
  succs := groupedSuccs g N
  edges_ok := by
    intro t u
    unfold groupedSuccs groupedPreds
    by_cases h1 : t + g < N <;> by_cases h2 : g ≤ u ∧ u < N <;>
      simp [h1, h2, List.count_singleton, List.count_nil, beq_iff_eq] <;>
      (try split_ifs) <;> omega

/-- State after schedule_and_wait_for_tasks has scheduled the whole grouped
batch: nothing executed yet, all tasks marked scheduled. -/
def batchStart (g N : Nat) : SchedState Unit :=
  ⟨[], fun u => (groupedPreds g N u).length, fun _ => true, ()⟩

/-- The queue contents after scheduling the batch in index order: the tasks
that were ready at schedule time, in index order. -/
def readyQueue (g N : Nat) : List Nat :=
  (List.range N).filter (fun t => decide ((groupedPreds g N t).length = 0))

/-- One worker iteration: pop task t from the queue and, when it is ready,
scheduled and not yet done, execute it with its inline successor chain. -/
def workerStep (g N : Nat) (acc : SchedState Unit) (t : Nat) : SchedState Unit :=
  if acc.count t = 0 ∧ acc.sched t = true ∧ t ∉ acc.trace then
    execTask (groupedGraph g N) (fun _ s => s) N t acc
  else acc

/-- Single worker draining the queue: pop each ready task and execute it
together with its inline successor chain. -/
def runBatch (g N : Nat) : SchedState Unit :=
  (readyQueue g N).foldl (workerStep g N) (batchStart g N)

/-- The chain of task indices k, k+g, k+2g, ... below N (fuel-bounded). -/
def chainFrom (g N : Nat) : Nat → Nat → List Nat
  | 0, _ => []
  | fuel+1, k => if k < N then k :: chainFrom g N fuel (k + g) else []

/-! ## Frame state machine and eviction (claim about pin safety)

Modelled from the spec: the Frame state machine (frame.hpp/frame.cpp) and
the bodies of BufferManager::pin_page / unpin_page and
EvictionItem::can_evict / can_mark are not under src, only declarations are.
The transition system below follows spec sections 3 (Frame), 4.4 and 4.6:
states EVICTED, LOADING, RESIDENT, MARKED_FOR_EVICTION, LOCKED_EXCLUSIVE;
every transition bumps the version; a pin on a MARKED frame first moves it
back to RESIDENT; an unpin that drops the count to zero marks the frame and
enqueues an eviction candidate stamped with the current version; an evictor
pops a candidate and confirms it only when the frame is still MARKED with
exactly the stamped version, otherwise the candidate is dropped as stale. -/

inductive FrameState where
  | evicted
  | loading
  | resident
  | marked
  | locked
deriving DecidableEq

/-- One frame together with the eviction-queue candidates that reference it
(each candidate is its enqueue timestamp). -/
structure FrameS where
  fstate : FrameState
  version : Nat
  pins : Nat
  queue : List Nat
deriving DecidableEq

/-- Small-step transitions of one frame under buffer-manager operations. -/
inductive FStep : FrameS → FrameS → Prop where
  | startLoad (v p q) : FStep ⟨.evicted, v, p, q⟩ ⟨.loading, v + 1, p, q⟩
  | finishLoad (v p q) : FStep ⟨.loading, v, p, q⟩ ⟨.resident, v + 1, p, q⟩
  | pinResident (v p q) : FStep ⟨.resident, v, p, q⟩ ⟨.resident, v, p + 1, q⟩
  | pinMarked (v p q) : FStep ⟨.marked, v, p, q⟩ ⟨.resident, v + 1, p + 1, q⟩
  | unpinPos (v p q) : FStep ⟨.resident, v, p + 2, q⟩ ⟨.resident, v, p + 1, q⟩
  | unpinZero (v q) : FStep ⟨.resident, v, 1, q⟩ ⟨.marked, v + 1, 0, q ++ [v + 1]⟩
  | evictHit (v p q) : FStep ⟨.marked, v, p, v :: q⟩ ⟨.evicted, v + 1, p, q⟩
  | evictSkip (st v p ts q) : ¬(st = .marked ∧ ts = v) →
      FStep ⟨st, v, p, ts :: q⟩ ⟨st, v, p, q⟩
  | lockFlush (v q) : FStep ⟨.resident, v, 0, q⟩ ⟨.locked, v + 1, 0, q⟩
  | unlockFlush (v q) : FStep ⟨.locked, v, 0, q⟩ ⟨.resident, v + 1, 0, q⟩

/-- A freshly allocated page: resident, unpinned, no candidates. -/
def frameInit : FrameS := ⟨.resident, 0, 0, []⟩

/-- Frame states reachable by legal operation sequences. -/
inductive FReachable : FrameS → Prop where
  | init : FReachable frameInit
  | step {s s'} : FReachable s → FStep s s' → FReachable s'

/-! ## Single-worker cooperative progress (nested spawn and wait)

Modelled from the spec: Worker::_wait_for_tasks and the worker main loop are
not under src.  Per spec sections 4.9 and 4.11, a worker that waits on a set
of tasks keeps draining its queue cooperatively; the model is a single
worker whose jobs are either inner jobs (increment a counter) or outer jobs
that spawn m inner jobs at the back of the queue and then wait for exactly
those jobs.  Waiting outer jobs form a stack (innermost wait first); a step
first completes the innermost waiting job if its wait set is done, otherwise
the worker pops the next queued job. -/

inductive WJob where
  | outerJob (m : Nat)
  | innerJob (id : Nat)
deriving DecidableEq

/-- Worker state: FIFO queue, stack of wait sets of the outer jobs currently
waiting (each wait set lists inner job ids), finished inner ids, next fresh
id, the shared counter and the number of completed outer jobs. -/
structure WState where
  queue : List WJob
  stack : List (List Nat)
  doneIds : List Nat
  nextId : Nat
  counter : Nat
  doneOuter : Nat
deriving DecidableEq

/-- Pop and run the next queued job: an inner job bumps the counter and is
recorded done; an outer job spawns its m inner jobs at the back of the queue
and starts waiting for them. -/
def popQ (s : WState) : Option WState :=
  match s.queue with
  | [] => none
  | .innerJob id :: q =>
      some { s with queue := q, doneIds := id :: s.doneIds, counter := s.counter + 1 }
  | .outerJob m :: q =>
      some { s with
        queue := q ++ (List.range m).map (fun i => WJob.innerJob (s.nextId + i)),
        stack := (List.range m).map (fun i => s.nextId + i) :: s.stack,
        nextId := s.nextId + m }

/-- One cooperative worker step; none when the worker is idle. -/
def wstep (s : WState) : Option WState :=
  match s.stack with
  | ws :: rest =>
      if ws.all (fun id => s.doneIds.contains id) then
        some { s with stack := rest, doneOuter := s.doneOuter + 1 }
      else popQ s
  | [] => popQ s

/-- Iterate the worker for a bounded number of steps. -/
def runW : Nat → WState → WState
  | 0, s => s
  | fuel+1, s =>
    match wstep s with
    | none => s
    | some s' => runW fuel s'

/-- Remaining step budget a queued job accounts for: an inner job takes one
step, an outer job takes one pop, m inner steps and one wait completion. -/
def jobWeight : WJob → Nat
  | .innerJob _ => 1
  | .outerJob m => m + 2

/-- Inner executions a queued job still contributes. -/
def jobInner : WJob → Nat
  | .innerJob _ => 1
  | .outerJob m => m

/-- Outer completions a queued job still contributes. -/
def jobOuter : WJob → Nat
  | .innerJob _ => 0
  | .outerJob _ => 1

/-- Total remaining steps of a worker state. -/
def measureW (s : WState) : Nat := (s.queue.map jobWeight).sum + s.stack.length

/-- Conserved quantity: counter plus pending inner executions. -/
def innerTotal (s : WState) : Nat := s.counter + (s.queue.map jobInner).sum

/-- Conserved quantity: finished outers plus pending outers (queued or
waiting). -/
def outerTotal (s : WState) : Nat :=
  s.doneOuter + (s.queue.map jobOuter).sum + s.stack.length

/-- Every inner id some outer waits for is finished or still queued. -/
def WaitSetsCovered (s : WState) : Prop :=
  ∀ ws ∈ s.stack, ∀ id ∈ ws, id ∈ s.doneIds ∨ WJob.innerJob id ∈ s.queue

/-- The nested-spawn workload of the scheduler tests: n outer tasks, each
spawning m counter-incrementing inner tasks and waiting for them. -/
def initW (n m : Nat) : WState :=
  ⟨List.replicate n (WJob.outerJob m), [], [], 0, 0, 0⟩

/-! ## Group count policy

Modelled from the spec: NodeQueueScheduler::determine_group_count is not
under src.  Per spec section 4.12 it short-circuits to the worker count for
small batches and otherwise returns a load-sensitive group count: many
groups (about the worker count) under low load, fewer groups under high
load.  The concrete decreasing shape chosen here is a quotient by the
current queue load. -/

/-- Small-batch threshold (worker count times a small factor). -/
def small_task_threshold (workerCount : Nat) : Nat := 2 * workerCount

/-- Load-sensitive group count policy. -/
def determine_group_count (workerCount queueLoad numTasks : Nat) : Nat :=
  if numTasks ≤ small_task_threshold workerCount then workerCount
  else max 1 ((4 * workerCount) / (1 + queueLoad))

/-! ## Invariants used by the proofs -/

/-- Scheduler invariant: the trace has no repetitions, every predecessor
count equals the number of predecessor-list positions whose task is not yet
done, and the trace is closed under predecessors with predecessors placed
strictly earlier. -/
def SchedInv {σ : Type} (g : TaskGraph) (st : SchedState σ) : Prop :=
  st.trace.Nodup ∧
  (∀ u, st.count u = (g.preds u).countP (fun a => decide (a ∉ st.trace))) ∧
  (∀ b ∈ st.trace, ∀ a ∈ g.preds b,
    a ∈ st.trace ∧ st.trace.indexOf a < st.trace.indexOf b)

/-- Frame invariant: a pinned frame is resident, and every queued eviction
candidate carries a timestamp bounded by the current version. -/
def FrameInv (s : FrameS) : Prop :=
  (0 < s.pins → s.fstate = FrameState.resident) ∧ (∀ ts ∈ s.queue, ts ≤ s.version)

/-- The complete single-worker run of the nested-spawn workload, with the
exact step budget it needs. -/
def nestedRun (n m : Nat) : WState := runW (n * (m + 2)) (initW n m)

/-! ## Theorems -/

/-- C1.  The claim says the explicit conversion of a BufferManagedPtr to bool
yields true iff the pointer is non-null (page id not INVALID_PAGE_ID).  The
source operator bool (buffer_managed_ptr.hpp lines 111-113) instead returns
page_id == INVALID_PAGE_ID || offset == 0, so on the null pointer
(INVALID_PAGE_ID, offset 0), whose resolution is the null address and whose
operator! is true, the conversion also yields true, contradicting the claim
and the adjacent operator!. -/
theorem c1_op_bool_true_on_null_pointer :
    BufferManagedPtr.op_bool ⟨INVALID_PAGE_ID, 0⟩ = true ∧
    BufferManagedPtr.get_pointer env0 ⟨INVALID_PAGE_ID, 0⟩ = 0 ∧
    BufferManagedPtr.op_not env0 ⟨INVALID_PAGE_ID, 0⟩ = true := by
  refine ⟨by decide, ?_, ?_⟩ <;> simp [BufferManagedPtr.get_pointer, BufferManagedPtr.op_not]

/-- C2 counterexample.  The claim says p += n updates p's offset by exactly
+n; in the source (buffer_managed_ptr.hpp lines 84-92) operator+= and
operator-= have commented-out bodies and return *this unchanged, so at
p = (valid page, offset 10) and n = 3 the offset stays 10, not 13. -/
theorem c2_plusEq_is_noop_counterexample :
    ¬ ((BufferManagedPtr.plusEq ⟨samplePage, 10⟩ 3).offset = 10 + 3) := by
  decide

/-- C2 amended.  Arithmetic on a BufferManagedPtr acts purely on the
embedded byte offset and never consults the buffer manager (none of these
operations takes a resolution environment; only get_pointer does): p + n and
p - n keep the page id and change the offset by exactly +n / -n, ++p and
--p change it by one, while p += n and p -= n return the pointer unchanged
(their bodies are commented out in the source). -/
theorem c2_arithmetic_acts_on_offset (p : BufferManagedPtr) (n : Int) :
    (p.op_add n).page_id = p.page_id ∧ (p.op_add n).offset = p.offset + n ∧
    (p.op_sub n).page_id = p.page_id ∧ (p.op_sub n).offset = p.offset - n ∧
    p.plusEq n = p ∧ p.minusEq n = p ∧
    p.inc.page_id = p.page_id ∧ p.inc.offset = p.offset + 1 ∧
    p.dec.page_id = p.page_id ∧ p.dec.offset = p.offset - 1 :=
  ⟨rfl, rfl, rfl, rfl, rfl, rfl, rfl, rfl, rfl, rfl⟩

/-- C8.  Pointer comparison operators ==, < and <= compare the raw addresses
the two pointers resolve to at the moment of comparison, never the
(page id, offset) pair itself; in particular two null pointers with
different pairs compare equal. -/
theorem c8_comparisons_use_resolved_addresses :
    (∀ (env : BufferEnv) (p q : BufferManagedPtr),
      (BufferManagedPtr.op_eq env p q = true ↔
        BufferManagedPtr.get_pointer env p = BufferManagedPtr.get_pointer env q) ∧
      (BufferManagedPtr.op_lt env p q = true ↔
        BufferManagedPtr.get_pointer env p < BufferManagedPtr.get_pointer env q) ∧
      (BufferManagedPtr.op_le env p q = true ↔
        BufferManagedPtr.get_pointer env p ≤ BufferManagedPtr.get_pointer env q)) ∧
    (BufferManagedPtr.op_eq env0 ⟨INVALID_PAGE_ID, 0⟩ ⟨INVALID_PAGE_ID, 5⟩ = true ∧
      (⟨INVALID_PAGE_ID, 0⟩ : BufferManagedPtr) ≠ ⟨INVALID_PAGE_ID, 5⟩) := by
  refine ⟨fun env p q => ⟨decide_eq_true_iff, decide_eq_true_iff, decide_eq_true_iff⟩, ?_, ?_⟩
  · simp [BufferManagedPtr.op_eq, BufferManagedPtr.get_pointer]
  · decide

/-- C10.  The defaultable raw-pointer constructor ignores its argument and
always produces the null pointer (INVALID_PAGE_ID, offset 0), which resolves
to the null address in every environment. -/
theorem c10_raw_ctor_ignores_argument (raw : Int) (env : BufferEnv) :
    BufferManagedPtr.fromRaw raw = ⟨INVALID_PAGE_ID, 0⟩ ∧
    BufferManagedPtr.get_pointer env (BufferManagedPtr.fromRaw raw) = 0 := by
  refine ⟨rfl, ?_⟩
  simp [BufferManagedPtr.get_pointer, BufferManagedPtr.fromRaw]

/-- C9.  The group count computed for a fixed task set under a lighter queue
load is at least the one computed under a heavier load (spec-modelled
policy: equal worker count on the small-batch branch, a load-quotient
otherwise). -/
theorem c9_group_count_antitone_in_load (workerCount numTasks l1 l2 : Nat)
    (h : l1 ≤ l2) :
    determine_group_count workerCount l2 numTasks ≤
      determine_group_count workerCount l1 numTasks := by
  unfold determine_group_count
  split_ifs
  · exact Nat.le_refl _
  · exact max_le_max (Nat.le_refl 1) (Nat.div_le_div_left (by omega) (by omega))

/-- C9 witness at worker count 4, batch 64, loads 0 and 10. -/
theorem c9_group_count_witness :
    determine_group_count 4 10 64 ≤ determine_group_count 4 0 64 :=
  c9_group_count_antitone_in_load 4 64 0 10 (by decide)

/-- Monotonicity of the size classes: a larger class index never has a
smaller byte size. -/
theorem bytes_for_size_type_mono {j k : PageSizeType} (h : j ≤ k) :
    bytes_for_size_type j ≤ bytes_for_size_type k := by
  unfold bytes_for_size_type
  rw [Nat.shiftLeft_eq, Nat.shiftLeft_eq]
  exact Nat.mul_le_mul_left _ (Nat.pow_le_pow_right (by decide) h)

/-- C7.  find_fitting_page_size_type succeeds exactly when the request fits
the largest class, and when it returns class k the request fits k and every
strictly smaller class is too small (k is minimal). -/
theorem c7_find_fitting_is_minimal (n : Nat) :
    ((find_fitting_page_size_type n).isSome ↔
      n ≤ bytes_for_size_type ⟨9, by decide⟩) ∧
    (∀ k, find_fitting_page_size_type n = some k →
      n ≤ bytes_for_size_type k ∧
      ∀ j : PageSizeType, j < k → bytes_for_size_type j < n) := by
  constructor
  · rw [find_fitting_page_size_type, List.find?_isSome]
    constructor
    · rintro ⟨x, -, hx⟩
      exact le_trans (of_decide_eq_true hx) (bytes_for_size_type_mono (Fin.le_last x))
    · intro h
      exact ⟨⟨9, by decide⟩, List.mem_finRange _, decide_eq_true h⟩
  · intro k hk
    rw [find_fitting_page_size_type, List.find?_eq_some] at hk
    obtain ⟨hpk, as, bs, heq, hprev⟩ := hk
    refine ⟨of_decide_eq_true hpk, fun j hj => ?_⟩
    have hjmem : j ∈ as ++ k :: bs := heq ▸ List.mem_finRange j
    have hpair : (as ++ k :: bs).Pairwise (fun a b => a < b) :=
      heq ▸ List.pairwise_lt_finRange _
    rcases List.mem_append.mp hjmem with hja | hjk
    · have := hprev j hja
      have hnot : ¬ (n ≤ bytes_for_size_type j) := by
        simpa using this
      omega
    · rcases List.mem_cons.mp hjk with rfl | hjb
      · exact absurd hj (lt_irrefl _)
      · have hkj : k < j := ((List.pairwise_cons.mp (List.pairwise_append.mp hpair).2.1).1) j hjb
        exact absurd (lt_trans hj hkj) (lt_irrefl _)

/-- C7 witness at 5000 bytes: class 1 (8 KiB) fits and class 0 (4 KiB) is
too small. -/
theorem c7_find_fitting_witness :
    5000 ≤ bytes_for_size_type ⟨1, by decide⟩ ∧
    bytes_for_size_type ⟨0, by decide⟩ < 5000 :=
  ⟨((c7_find_fitting_is_minimal 5000).2 ⟨1, by decide⟩ (by decide)).1,
   ((c7_find_fitting_is_minimal 5000).2 ⟨1, by decide⟩ (by decide)).2 ⟨0, by decide⟩ (by decide)⟩

/-- Every frame transition preserves the frame invariant. -/
theorem fstep_preserves_inv {s s' : FrameS} (h : FStep s s') (hs : FrameInv s) :
    FrameInv s' := by
  obtain ⟨h1, h2⟩ := hs
  cases h with
  | startLoad v p q =>
    refine ⟨fun hp => absurd (h1 hp) (by simp), fun ts hts => ?_⟩
    exact Nat.le_trans (h2 ts hts) (Nat.le_succ v)
  | finishLoad v p q =>
    refine ⟨fun _ => rfl, fun ts hts => Nat.le_trans (h2 ts hts) (Nat.le_succ v)⟩
  | pinResident v p q => exact ⟨fun _ => rfl, h2⟩
  | pinMarked v p q =>
    refine ⟨fun _ => rfl, fun ts hts => Nat.le_trans (h2 ts hts) (Nat.le_succ v)⟩
  | unpinPos v p q => exact ⟨fun _ => rfl, h2⟩
  | unpinZero v q =>
    refine ⟨fun hp => absurd hp (by simp), fun ts hts => ?_⟩
    rcases List.mem_append.mp hts with h | h
    · exact Nat.le_trans (h2 ts h) (Nat.le_succ v)
    · rw [List.mem_singleton.mp h]
  | evictHit v p q =>
    refine ⟨fun hp => absurd (h1 hp) (by simp), fun ts hts => ?_⟩
    exact Nat.le_trans (h2 ts (List.mem_cons_of_mem _ hts)) (Nat.le_succ v)
  | evictSkip st v p ts q hne =>
    exact ⟨h1, fun ts' hts' => h2 ts' (List.mem_cons_of_mem _ hts')⟩
  | lockFlush v q =>
    refine ⟨fun hp => absurd hp (by simp), fun ts hts => ?_⟩
    exact Nat.le_trans (h2 ts hts) (Nat.le_succ v)
  | unlockFlush v q =>
    refine ⟨fun _ => rfl, fun ts hts => Nat.le_trans (h2 ts hts) (Nat.le_succ v)⟩

/-- Every reachable frame state satisfies the frame invariant. -/
theorem freachable_inv {s : FrameS} (h : FReachable s) : FrameInv s := by
  induction h with
  | init =>
    exact ⟨fun hp => absurd hp (by decide), fun ts hts => absurd hts (List.not_mem_nil ts)⟩
  | step _ hstep ih => exact fstep_preserves_inv hstep ih

/-- C5.  Pin safety of the eviction protocol: in every reachable frame state
a pinned page is resident; no transition out of a pinned state ever reaches
EVICTED; an eviction candidate is confirmed (MARKED to EVICTED, candidate
dequeued) only when the frame is MARKED and the queue-front timestamp equals
the frame's current version, with zero pins; a pin taken on a MARKED frame
leaves every queued candidate with a timestamp strictly below the new
version (stale); and versions never decrease, so a stale candidate can never
match again until a new unpin re-marks the frame. -/
theorem c5_pin_safety {s : FrameS} (hr : FReachable s) :
    (0 < s.pins → s.fstate = FrameState.resident) ∧
    (∀ s', FStep s s' → 0 < s.pins → s'.fstate ≠ FrameState.evicted) ∧
    (∀ s', FStep s s' → s'.fstate = FrameState.evicted →
      s.fstate ≠ FrameState.evicted →
      s.fstate = FrameState.marked ∧ s.queue.head? = some s.version ∧ s.pins = 0) ∧
    (∀ s', FStep s s' → s.fstate = FrameState.marked → 0 < s'.pins →
      ∀ ts ∈ s'.queue, ts < s'.version) ∧
    (∀ s', FStep s s' → s.version ≤ s'.version) := by
  obtain ⟨h1, h2⟩ := freachable_inv hr
  refine ⟨h1, ?_, ?_, ?_, ?_⟩
  · intro s' hstep hp
    have hres := h1 hp
    cases hstep <;> simp_all
  · intro s' hstep hev hnev
    cases hstep with
    | evictHit v p q =>
      refine ⟨rfl, rfl, ?_⟩
      rcases Nat.eq_zero_or_pos p with h | h
      · exact h
      · exact absurd (h1 h) (by simp)
    | evictSkip st v p ts q hne => exact absurd hev hnev
    | _ => simp_all
  · intro s' hstep hmk hp ts hts
    cases hstep with
    | pinMarked v p q =>
      exact Nat.lt_succ_of_le (h2 ts hts)
    | evictHit v p q =>
      rcases Nat.eq_zero_or_pos p with h | h
      · subst h; exact absurd hp (by simp)
      · exact absurd (h1 h) (by simp)
    | evictSkip st v p ts' q hne =>
      have hpz : p = 0 := by
        rcases Nat.eq_zero_or_pos p with h | h
        · exact h
        · have := h1 h; simp_all
      subst hpz; exact absurd hp (by simp)
    | _ => simp_all
  · intro s' hstep
    cases hstep <;> simp

/-- C5 witness: pinning the freshly created resident frame yields a
reachable pinned state, and the theorem reports it resident. -/
theorem c5_pin_safety_witness :
    FrameS.fstate ⟨FrameState.resident, 0, 1, []⟩ = FrameState.resident :=
  (c5_pin_safety (FReachable.step FReachable.init (FStep.pinResident 0 0 []))).1
    (by decide)

/-- Sum of a constant-one map is the length. -/
theorem sum_map_one {α : Type} (l : List α) : (l.map (fun _ => (1 : Nat))).sum = l.length := by
  induction l with
  | nil => rfl
  | cons a l ih => simp [ih]; omega

/-- Sum of a constant-zero map is zero. -/
theorem sum_map_zero {α : Type} (l : List α) : (l.map (fun _ => (0 : Nat))).sum = 0 := by
  induction l with
  | nil => rfl
  | cons a l ih => simp [ih]

/-- A worker step consumes exactly one unit of the measure and preserves the
two conserved totals and the wait-set coverage invariant. -/
theorem wstep_facts {s s' : WState} (h : wstep s = some s') :
    measureW s' + 1 = measureW s ∧ innerTotal s' = innerTotal s ∧
    outerTotal s' = outerTotal s ∧ (WaitSetsCovered s → WaitSetsCovered s') := by
  obtain ⟨queue, stack, doneIds, nextId, counter, doneOuter⟩ := s
  have hpop : ∀ (stk : List (List Nat)) (dOut : Nat),
      popQ ⟨queue, stk, doneIds, nextId, counter, dOut⟩ = some s' →
      measureW s' + 1 =
        measureW ⟨queue, stk, doneIds, nextId, counter, dOut⟩ ∧
      innerTotal s' = innerTotal ⟨queue, stk, doneIds, nextId, counter, dOut⟩ ∧
      outerTotal s' = outerTotal ⟨queue, stk, doneIds, nextId, counter, dOut⟩ ∧
      (WaitSetsCovered ⟨queue, stk, doneIds, nextId, counter, dOut⟩ →
        WaitSetsCovered s') := by
    intro stk dOut hp
    cases queue with
    | nil => simp [popQ] at hp
    | cons j q =>
      cases j with
      | innerJob id =>
        simp only [popQ, Option.some.injEq] at hp
        subst hp
        refine ⟨?_, ?_, ?_, ?_⟩
        · simp [measureW, jobWeight]; omega
        · simp [innerTotal, jobInner]; omega
        · simp [outerTotal, jobOuter]
        · intro hc ws hws i hi
          rcases hc ws hws i hi with hdone | hq
          · exact Or.inl (List.mem_cons_of_mem _ hdone)
          · rcases List.mem_cons.mp hq with heq | hq'
            · exact Or.inl (by rw [WJob.innerJob.injEq] at heq; rw [heq]; exact List.mem_cons_self _ _)
            · exact Or.inr hq'
      | outerJob m =>
        simp only [popQ, Option.some.injEq] at hp
        subst hp
        refine ⟨?_, ?_, ?_, ?_⟩
        · simp [measureW, jobWeight, List.map_map, Function.comp_def, sum_map_one]
          omega
        · simp [innerTotal, jobInner, List.map_map, Function.comp_def, sum_map_one]
          omega
        · simp [outerTotal, jobOuter, List.map_map, Function.comp_def, sum_map_zero]
          omega
        · intro hc ws hws i hi
          rcases List.mem_cons.mp hws with hwnew | hwold
          · subst hwnew
            obtain ⟨x, hx, hix⟩ := List.mem_map.mp hi
            refine Or.inr (List.mem_append.mpr (Or.inr ?_))
            exact List.mem_map.mpr ⟨x, hx, by rw [hix]⟩
          · rcases hc ws hwold i hi with hdone | hq
            · exact Or.inl hdone
            · rcases List.mem_cons.mp hq with heq | hq'
              · exact absurd heq (by simp)
              · exact Or.inr (List.mem_append.mpr (Or.inl hq'))
  cases stack with
  | nil => exact hpop [] doneOuter (by simpa [wstep] using h)
  | cons ws rest =>
    by_cases hall : ws.all (fun id => doneIds.contains id) = true
    · simp only [wstep] at h
      rw [if_pos hall] at h
      rw [Option.some.injEq] at h
      subst h
      refine ⟨?_, ?_, ?_, ?_⟩
      · simp [measureW]; omega
      · simp [innerTotal]
      · simp [outerTotal]; omega
      · intro hc ws' hws' i hi
        exact hc ws' (List.mem_cons_of_mem _ hws') i hi
    · refine hpop (ws :: rest) doneOuter ?_
      simp only [wstep] at h
      rwa [if_neg hall] at h

/-- An idle worker (no step possible) with covered wait sets has an empty
queue and an empty wait stack. -/
theorem wstep_none {s : WState} (hc : WaitSetsCovered s) (h : wstep s = none) :
    s.queue = [] ∧ s.stack = [] := by
  obtain ⟨queue, stack, doneIds, nextId, counter, doneOuter⟩ := s
  have hqnil : ∀ (stk : List (List Nat)) (dOut : Nat),
      popQ ⟨queue, stk, doneIds, nextId, counter, dOut⟩ = none → queue = [] := by
    intro stk dOut hp
    cases queue with
    | nil => rfl
    | cons j q => cases j <;> simp [popQ] at hp
  cases stack with
  | nil => exact ⟨hqnil [] doneOuter (by simpa [wstep] using h), rfl⟩
  | cons ws rest =>
    by_cases hall : ws.all (fun id => doneIds.contains id) = true
    · exfalso
      simp only [wstep] at h
      rw [if_pos hall] at h
      exact Option.noConfusion h
    · exfalso
      have hq : queue = [] := by
        refine hqnil (ws :: rest) doneOuter ?_
        simp only [wstep] at h
        rwa [if_neg hall] at h
      subst hq
      apply hall
      rw [List.all_eq_true]
      intro id hid
      rcases hc ws (List.mem_cons_self _ _) id hid with hdone | habs
      · simpa using hdone
      · exact absurd habs (List.not_mem_nil _)

/-- Running the worker with fuel at least the measure reaches an idle state
and preserves the conserved totals and coverage. -/
theorem runW_final : ∀ (fuel : Nat) (s : WState), WaitSetsCovered s →
    measureW s ≤ fuel →
    wstep (runW fuel s) = none ∧ WaitSetsCovered (runW fuel s) ∧
    innerTotal (runW fuel s) = innerTotal s ∧
    outerTotal (runW fuel s) = outerTotal s := by
  intro fuel
  induction fuel with
  | zero =>
    intro s hc hm
    have hq : s.queue = [] := by
      rcases hq : s.queue with _ | ⟨j, q⟩
      · rfl
      · exfalso
        have : 1 ≤ (s.queue.map jobWeight).sum := by
          rw [hq]
          have : 1 ≤ jobWeight j := by cases j <;> simp [jobWeight]
          simp
          omega
        have := hm
        unfold measureW at this
        omega
    have hst : s.stack = [] := by
      have := hm
      unfold measureW at this
      rcases hst : s.stack with _ | ⟨ws, rest⟩
      · rfl
      · rw [hst] at this; simp at this
    refine ⟨?_, ?_, rfl, rfl⟩
    · obtain ⟨queue, stack, doneIds, nextId, counter, doneOuter⟩ := s
      simp only at hq hst
      subst hq; subst hst
      simp [runW, wstep, popQ]
    · simpa [runW] using hc
  | succ fuel ih =>
    intro s hc hm
    cases hw : wstep s with
    | none =>
      rw [runW, hw]
      exact ⟨hw, hc, rfl, rfl⟩
    | some s' =>
      rw [runW, hw]
      obtain ⟨hmeas, hin, hout, hcov⟩ := wstep_facts hw
      obtain ⟨h1, h2, h3, h4⟩ := ih s' (hcov hc) (by omega)
      exact ⟨h1, h2, by rw [h3, hin], by rw [h4, hout]⟩

/-- C6.  Single-worker cooperative progress: for every nested-spawn workload
of n outer tasks each spawning m counter-incrementing subtasks and waiting
for them, the single worker terminates within n * (m + 2) steps with an
empty queue, no task still waiting, every inner task executed (counter
equals n * m) and every outer task completed; no deadlock occurs. -/
theorem c6_nested_spawn_all_done (n m : Nat) :
    wstep (nestedRun n m) = none ∧ (nestedRun n m).queue = [] ∧
    (nestedRun n m).stack = [] ∧ (nestedRun n m).counter = n * m ∧
    (nestedRun n m).doneOuter = n := by
  have hcov : WaitSetsCovered (initW n m) := by
    intro ws hws
    exact absurd hws (List.not_mem_nil _)
  have hmeas : measureW (initW n m) ≤ n * (m + 2) := by
    unfold measureW initW
    simp [jobWeight, List.sum_const_nat]
  obtain ⟨hnone, hcov', hin, hout⟩ := runW_final (n * (m + 2)) (initW n m) hcov hmeas
  have hqs := wstep_none hcov' hnone
  have hinner : innerTotal (initW n m) = n * m := by
    unfold innerTotal initW
    simp [jobInner, List.sum_const_nat]
  have houter : outerTotal (initW n m) = n := by
    unfold outerTotal initW
    simp [jobOuter, List.sum_const_nat]
  refine ⟨hnone, hqs.1, hqs.2, ?_, ?_⟩
  · have := hin
    rw [hinner] at this
    unfold innerTotal at this
    rw [hqs.1] at this
    simpa using this
  · have := hout
    rw [houter] at this
    unfold outerTotal at this
    rw [hqs.1, hqs.2] at this
    simpa using this

/-- Unfolding lemma for execTask at zero fuel. -/
theorem execTask_zero {σ : Type} (g : TaskGraph) (payload : Nat → σ → σ)
    (t : Nat) (st : SchedState σ) : execTask g payload 0 t st = st := rfl

/-- Unfolding lemma for execTask at positive fuel. -/
theorem execTask_succ {σ : Type} (g : TaskGraph) (payload : Nat → σ → σ)
    (fuel t : Nat) (st : SchedState σ) :
    execTask g payload (fuel + 1) t st =
      if t ∈ st.trace then st
      else
        (g.succs t).foldl
          (fun acc u =>
            if acc.count u = 0 ∧ acc.sched u = true ∧ u ∉ acc.trace then
              execTask g payload fuel u acc
            else acc)
          ⟨st.trace ++ [t], fun u => st.count u - (g.succs t).count u,
           st.sched, payload t st.shared⟩ := rfl

/-- Appending a fresh element to the reference list turns exactly the
positions holding that element from counted to uncounted. -/
theorem countP_snoc_not_mem {t : Nat} {tr : List Nat} (ht : t ∉ tr) :
    ∀ l : List Nat,
      l.countP (fun a => decide (a ∉ tr))
        = l.countP (fun a => decide (a ∉ tr ++ [t])) + l.count t := by
  intro l
  induction l with
  | nil => rfl
  | cons a l ih =>
    by_cases hat : a = t
    · subst hat
      rw [List.countP_cons_of_pos (fun x => decide (x ∉ tr)) l
            (decide_eq_true ht),
          List.countP_cons_of_neg (fun x => decide (x ∉ tr ++ [a])) l
            (by simp), List.count_cons_self]
      omega
    · rw [List.count_cons_of_ne (Ne.symm hat)]
      by_cases ham : a ∈ tr
      · rw [List.countP_cons_of_neg (fun x => decide (x ∉ tr)) l
              (by simp [ham]),
            List.countP_cons_of_neg (fun x => decide (x ∉ tr ++ [t])) l
              (by simp [ham])]
        exact ih
      · rw [List.countP_cons_of_pos (fun x => decide (x ∉ tr)) l
              (by simp [ham]),
            List.countP_cons_of_pos (fun x => decide (x ∉ tr ++ [t])) l
              (by simp [ham, hat])]
        omega

/-- Marking a ready fresh task done preserves the scheduler invariant. -/
theorem inv_append {σ : Type} (g : TaskGraph) (payload : Nat → σ → σ) (t : Nat)
    (st : SchedState σ) (hinv : SchedInv g st) (ht : t ∉ st.trace)
    (hcnt : st.count t = 0) :
    SchedInv g ⟨st.trace ++ [t], fun u => st.count u - (g.succs t).count u,
      st.sched, payload t st.shared⟩ := by
  obtain ⟨hnd, hc, hord⟩ := hinv
  have hpt : ∀ a ∈ g.preds t, a ∈ st.trace := by
    intro a ha
    have h0 : (g.preds t).countP (fun a => decide (a ∉ st.trace)) = 0 := by
      rw [← hc t]; exact hcnt
    have := List.countP_eq_zero.mp h0 a ha
    simpa using this
  refine ⟨?_, ?_, ?_⟩
  · simpa [List.nodup_append] using ⟨hnd, ht⟩
  · intro u
    dsimp only
    have key := countP_snoc_not_mem ht (g.preds u)
    have hedge := g.edges_ok t u
    rw [hc u]
    omega
  · intro b hb a ha
    dsimp only at hb ⊢
    rcases List.mem_append.mp hb with hbt | hbs
    · have hold := hord b hbt a ha
      refine ⟨List.mem_append_left _ hold.1, ?_⟩
      rw [List.indexOf_append_of_mem hold.1, List.indexOf_append_of_mem hbt]
      exact hold.2
    · have hbeq : b = t := List.mem_singleton.mp hbs
      subst hbeq
      have hat : a ∈ st.trace := hpt a ha
      have hlt : st.trace.indexOf a < st.trace.length :=
        List.indexOf_lt_length.mpr hat
      refine ⟨List.mem_append_left _ hat, ?_⟩
      rw [List.indexOf_append_of_mem hat, List.indexOf_append_of_not_mem ht]
      simp [List.indexOf_cons_self]
      omega

/-- Executing a ready task (with its inline successors) preserves the
scheduler invariant. -/
theorem execTask_inv {σ : Type} (g : TaskGraph) (payload : Nat → σ → σ) :
    ∀ (fuel t : Nat) (st : SchedState σ), SchedInv g st → st.count t = 0 →
      SchedInv g (execTask g payload fuel t st) := by
  intro fuel
  induction fuel with
  | zero => intro t st h _; rw [execTask_zero]; exact h
  | succ fuel ih =>
    intro t st h hcnt
    rw [execTask_succ]
    by_cases hmem : t ∈ st.trace
    · rw [if_pos hmem]; exact h
    · rw [if_neg hmem]
      have h1 := inv_append g payload t st h hmem hcnt
      have aux : ∀ (l : List Nat) (acc : SchedState σ), SchedInv g acc →
          SchedInv g (l.foldl
            (fun acc u =>
              if acc.count u = 0 ∧ acc.sched u = true ∧ u ∉ acc.trace then
                execTask g payload fuel u acc
              else acc) acc) := by
        intro l
        induction l with
        | nil => intro acc hacc; exact hacc
        | cons u l ihl =>
          intro acc hacc
          rw [List.foldl_cons]
          apply ihl
          by_cases hcond : acc.count u = 0 ∧ acc.sched u = true ∧ u ∉ acc.trace
          · rw [if_pos hcond]; exact ih u acc hacc hcond.1
          · rw [if_neg hcond]; exact hacc
      exact aux _ _ h1

/-- Scheduling a task preserves the scheduler invariant. -/
theorem scheduleTask_inv {σ : Type} (g : TaskGraph) (payload : Nat → σ → σ)
    (fuel : Nat) (st : SchedState σ) (t : Nat) (h : SchedInv g st) :
    SchedInv g (scheduleTask g payload fuel st t) := by
  unfold scheduleTask
  by_cases h0 : st.sched t = true
  · rw [if_pos h0]; exact h
  · rw [if_neg h0]
    dsimp only
    by_cases h1 : st.count t = 0 ∧ t ∉ st.trace
    · rw [if_pos h1]
      exact execTask_inv g payload fuel t _ h h1.1
    · rw [if_neg h1]; exact h

/-- Running any sequence of schedule calls preserves the invariant. -/
theorem runSchedules_inv {σ : Type} (g : TaskGraph) (payload : Nat → σ → σ)
    (fuel : Nat) : ∀ (order : List Nat) (st : SchedState σ), SchedInv g st →
    SchedInv g (runSchedules g payload fuel order st) := by
  intro order
  induction order with
  | nil => intro st h; exact h
  | cons t order ihl =>
    intro st h
    rw [runSchedules, List.foldl_cons]
    exact ihl _ (scheduleTask_inv g payload fuel st t h)

/-- The initial state satisfies the scheduler invariant. -/
theorem initState_inv {σ : Type} (g : TaskGraph) (s0 : σ) :
    SchedInv g (initState g s0) := by
  refine ⟨List.nodup_nil, fun u => ?_, fun b hb => absurd hb (List.not_mem_nil b)⟩
  simp [initState]

/-- C3.  Task ordering: for every task graph, payload, schedule order and
fuel, whenever a is a transitive predecessor of b and b has executed, a
executed strictly before b (a completes before b begins; the model is a
sequential worker, so trace position order is completion order).  In
particular, the linear chain t1 -> t2 -> t3 of scenario S1 with
CAS-incrementing payloads, scheduled in the order t3, t1, t2, executes as
t1, t2, t3, leaves the counter at 3 and every CAS succeeds. -/
theorem c3_task_ordering_and_linear_chain :
    (∀ (σ : Type) (g : TaskGraph) (payload : Nat → σ → σ) (fuel : Nat)
      (order : List Nat) (s0 : σ) (a b : Nat),
      Relation.TransGen (fun x y => x ∈ g.preds y) a b →
      b ∈ (runSchedules g payload fuel order (initState g s0)).trace →
      a ∈ (runSchedules g payload fuel order (initState g s0)).trace ∧
        (runSchedules g payload fuel order (initState g s0)).trace.indexOf a <
          (runSchedules g payload fuel order (initState g s0)).trace.indexOf b) ∧
    ((runSchedules chainGraph casPayload 3 [2, 0, 1]
        (initState chainGraph (0, true))).trace = [0, 1, 2] ∧
      (runSchedules chainGraph casPayload 3 [2, 0, 1]
        (initState chainGraph (0, true))).shared = (3, true)) := by
  constructor
  · intro σ g payload fuel order s0 a b hab hb
    have hinv := runSchedules_inv g payload fuel order (initState g s0)
      (initState_inv g s0)
    obtain ⟨-, -, hord⟩ := hinv
    revert hb
    induction hab with
    | single h => exact fun hb => hord _ hb _ h
    | @tail bmid bfin hab hcb ih =>
      intro hb
      have hc := hord _ hb _ hcb
      have ha := ih hc.1
      exact ⟨ha.1, lt_trans ha.2 hc.2⟩
  · exact ⟨by decide, by decide⟩

/-- C3 witness: in the S1 run, task 0 (a transitive predecessor of task 2)
appears in the trace strictly before task 2. -/
theorem c3_task_ordering_witness :
    0 ∈ (runSchedules chainGraph casPayload 3 [2, 0, 1]
        (initState chainGraph (0, true))).trace ∧
      (runSchedules chainGraph casPayload 3 [2, 0, 1]
        (initState chainGraph (0, true))).trace.indexOf 0 <
        (runSchedules chainGraph casPayload 3 [2, 0, 1]
        (initState chainGraph (0, true))).trace.indexOf 2 :=
  c3_task_ordering_and_linear_chain.1 (Nat × Bool) chainGraph casPayload 3
    [2, 0, 1] (0, true) 0 2
    (Relation.TransGen.tail
      (Relation.TransGen.single (show 0 ∈ chainGraph.preds 1 by decide))
      (show 1 ∈ chainGraph.preds 2 by decide))
    (by decide)

/-- Unfolding lemma for chainFrom at zero fuel. -/
theorem chainFrom_zero (g N k : Nat) : chainFrom g N 0 k = [] := rfl

/-- Unfolding lemma for chainFrom at positive fuel. -/
theorem chainFrom_succ (g N fuel k : Nat) :
    chainFrom g N (fuel + 1) k
      = if k < N then k :: chainFrom g N fuel (k + g) else [] := rfl

/-- A chain starting at or past N is empty. -/
theorem chainFrom_of_ge (g N : Nat) :
    ∀ (fuel k : Nat), N ≤ k → chainFrom g N fuel k = [] := by
  intro fuel
  cases fuel with
  | zero => intro k _; rfl
  | succ fuel => intro k h; rw [chainFrom_succ, if_neg (by omega)]

/-- Chain members lie at or after the start, in the same residue class
modulo g, and below N. -/
theorem chainFrom_mem (g N : Nat) :
    ∀ (fuel k j : Nat), j ∈ chainFrom g N fuel k →
      k ≤ j ∧ j % g = k % g ∧ j < N := by
  intro fuel
  induction fuel with
  | zero =>
    intro k j hj
    rw [chainFrom_zero] at hj
    exact absurd hj (List.not_mem_nil j)
  | succ fuel ih =>
    intro k j hj
    rw [chainFrom_succ] at hj
    by_cases hk : k < N
    · rw [if_pos hk] at hj
      rcases List.mem_cons.mp hj with rfl | hj'
      · exact ⟨Nat.le_refl j, rfl, hk⟩
      · obtain ⟨h1, h2, h3⟩ := ih (k + g) j hj'
        exact ⟨by omega, by rw [h2, Nat.add_mod_right], h3⟩
    · rw [if_neg hk] at hj
      exact absurd hj (List.not_mem_nil j)

/-- Every index below N in the start's residue class with enough fuel is a
chain member. -/
theorem chainFrom_mem_of (g N : Nat) (_hg : 0 < g) :
    ∀ (fuel k j : Nat), j < N → k ≤ j → j % g = k % g → j - k < g * fuel →
      j ∈ chainFrom g N fuel k := by
  intro fuel
  induction fuel with
  | zero => intro k j _ _ _ hlt; omega
  | succ fuel ih =>
    intro k j hjN hkj hmod hfuel
    rw [chainFrom_succ, if_pos (by omega : k < N)]
    rcases Nat.eq_or_lt_of_le hkj with rfl | hlt
    · exact List.mem_cons_self _ _
    · have hdvd : g ∣ j - k := (Nat.modEq_iff_dvd' hkj).mp hmod.symm
      have hge : g ≤ j - k := Nat.le_of_dvd (by omega) hdvd
      refine List.mem_cons_of_mem _ (ih (k + g) j hjN (by omega) ?_ ?_)
      · rw [Nat.add_mod_right]; exact hmod
      · have hms : g * (fuel + 1) = g * fuel + g := by ring
        omega

/-- Chains are strictly increasing. -/
theorem chainFrom_pairwise (g N : Nat) (hg : 0 < g) :
    ∀ (fuel k : Nat), (chainFrom g N fuel k).Pairwise (fun a b => a < b) := by
  intro fuel
  induction fuel with
  | zero => intro k; rw [chainFrom_zero]; exact List.Pairwise.nil
  | succ fuel ih =>
    intro k
    rw [chainFrom_succ]
    by_cases hk : k < N
    · rw [if_pos hk]
      refine List.pairwise_cons.mpr ⟨?_, ih (k + g)⟩
      intro j hj
      have := (chainFrom_mem g N fuel (k + g) j hj).1
      omega
    · rw [if_neg hk]; exact List.Pairwise.nil

/-- Executing a ready chain head on the grouped graph appends exactly its
chain to the trace, leaves the scheduled flags untouched and leaves the
counts of every other residue class untouched. -/
theorem exec_chain (g N : Nat) (hg : 0 < g) :
    ∀ (fuel k : Nat) (st : SchedState Unit), k < N →
      (∀ u, st.sched u = true) →
      (∀ j, k ≤ j → j % g = k % g → j ∉ st.trace) →
      (∀ j, k < j → j % g = k % g → j < N → st.count j = 1) →
      (execTask (groupedGraph g N) (fun _ s => s) fuel k st).trace
          = st.trace ++ chainFrom g N fuel k ∧
      (∀ u, (execTask (groupedGraph g N) (fun _ s => s) fuel k st).sched u
          = st.sched u) ∧
      (∀ j, j % g ≠ k % g →
        (execTask (groupedGraph g N) (fun _ s => s) fuel k st).count j
          = st.count j) := by
  intro fuel
  induction fuel with
  | zero =>
    intro k st hkN hsch htr hcnt
    rw [execTask_zero]
    exact ⟨by rw [chainFrom_zero, List.append_nil], fun u => rfl, fun j _ => rfl⟩
  | succ fuel ih =>
    intro k st hkN hsch htr hcnt
    rw [execTask_succ]
    have hknot : k ∉ st.trace := htr k (Nat.le_refl k) rfl
    rw [if_neg hknot]
    by_cases hkg : k + g < N
    · have hsuccs : (groupedGraph g N).succs k = [k + g] := by
        simp [groupedGraph, groupedSuccs, hkg]
      rw [hsuccs, List.foldl_cons, List.foldl_nil]
      have hmodkg : (k + g) % g = k % g := Nat.add_mod_right k g
      have hcnt1 : st.count (k + g) = 1 := hcnt (k + g) (by omega) hmodkg hkg
      have hnotmem : (k + g) ∉ st.trace ++ [k] := by
        intro hmem
        rcases List.mem_append.mp hmem with h | h
        · exact htr (k + g) (by omega) hmodkg h
        · have : k + g = k := List.mem_singleton.mp h
          omega
      have hcnt0 : st.count (k + g) - [k + g].count (k + g) = 0 := by
        rw [hcnt1, List.count_singleton_self]
      split_ifs with hcond
      · obtain ⟨ht', hs', hc'⟩ := ih (k + g)
          ⟨st.trace ++ [k], fun u => st.count u - [k + g].count u,
            st.sched, st.shared⟩ hkg
          (fun u => hsch u)
          (fun j hj hjm hmem => by
            rcases List.mem_append.mp hmem with h | h
            · exact htr j (by omega) (by rw [hjm, hmodkg]) h
            · have : j = k := List.mem_singleton.mp h
              omega)
          (fun j hj hjm hjN => by
            have hne : j ≠ k + g := by omega
            have hz : [k + g].count j = 0 := by
              rw [List.count_singleton]
              simp [Ne.symm hne]
            show st.count j - [k + g].count j = 1
            rw [hz, Nat.sub_zero]
            exact hcnt j (by omega) (by rw [hjm, hmodkg]) hjN)
        refine ⟨?_, ?_, ?_⟩
        · rw [ht']
          show (st.trace ++ [k]) ++ chainFrom g N fuel (k + g)
              = st.trace ++ chainFrom g N (fuel + 1) k
          rw [chainFrom_succ, if_pos hkN, List.append_assoc,
            List.singleton_append]
        · intro u
          exact hs' u
        · intro j hjm
          rw [hc' j (by rw [hmodkg]; exact hjm)]
          show st.count j - [k + g].count j = st.count j
          have hne : j ≠ k + g := by
            intro h
            rw [h] at hjm
            exact hjm hmodkg
          have hz : [k + g].count j = 0 := by
            rw [List.count_singleton]
            simp [Ne.symm hne]
          rw [hz, Nat.sub_zero]
      · exact absurd ⟨hcnt0, hsch (k + g), hnotmem⟩ hcond
    · have hsuccs : (groupedGraph g N).succs k = [] := by
        simp [groupedGraph, groupedSuccs, hkg]
      rw [hsuccs, List.foldl_nil]
      refine ⟨?_, fun u => rfl, ?_⟩
      · show st.trace ++ [k] = st.trace ++ chainFrom g N (fuel + 1) k
        rw [chainFrom_succ, if_pos hkN,
          chainFrom_of_ge g N fuel (k + g) (by omega)]
      · intro j hjm
        show st.count j - List.count j [] = st.count j
        rw [List.count_nil, Nat.sub_zero]

/-- After scheduling the grouped batch in index order, the queue holds
exactly the chain heads 0 .. min g N - 1 in index order. -/
theorem readyQueue_eq (g : Nat) : ∀ N, readyQueue g N = List.range (min g N) := by
  intro N
  induction N with
  | zero => rw [Nat.min_zero]; rfl
  | succ N ih =>
    have hsplit : readyQueue g (N + 1)
        = (List.range N).filter
            (fun t => decide ((groupedPreds g (N + 1) t).length = 0))
          ++ [N].filter
            (fun t => decide ((groupedPreds g (N + 1) t).length = 0)) := by
      rw [readyQueue, List.range_succ, List.filter_append]
    have hsame : (List.range N).filter
          (fun t => decide ((groupedPreds g (N + 1) t).length = 0))
        = readyQueue g N := by
      rw [readyQueue]
      apply List.filter_congr
      intro x hx
      have hxN : x < N := List.mem_range.mp hx
      have hpx : groupedPreds g (N + 1) x = groupedPreds g N x := by
        unfold groupedPreds
        by_cases hgx : g ≤ x
        · rw [if_pos ⟨hgx, by omega⟩, if_pos ⟨hgx, hxN⟩]
        · rw [if_neg (by omega), if_neg (by omega)]
      rw [hpx]
    rw [hsplit, hsame, ih]
    by_cases hgN : g ≤ N
    · have hlen : (groupedPreds g (N + 1) N).length = 1 := by
        unfold groupedPreds
        rw [if_pos ⟨hgN, by omega⟩]
        rfl
      have hmin : min g (N + 1) = min g N := by omega
      rw [hmin]
      have hp : decide ((groupedPreds g (N + 1) N).length = 0) = false := by
        rw [hlen]; rfl
      have : [N].filter
          (fun t => decide ((groupedPreds g (N + 1) t).length = 0)) = [] := by
        rw [@List.filter_cons_of_neg _
            (fun t => decide ((groupedPreds g (N + 1) t).length = 0)) N []
            (by simp only [hp]; exact Bool.false_ne_true),
          List.filter_nil]
      rw [this, List.append_nil]
    · have hlen : (groupedPreds g (N + 1) N).length = 0 := by
        unfold groupedPreds
        rw [if_neg (by omega)]
        rfl
      have hminN : min g N = N := by omega
      have hminN1 : min g (N + 1) = N + 1 := by omega
      have hp : decide ((groupedPreds g (N + 1) N).length = 0) = true := by
        rw [hlen]; rfl
      have : [N].filter
          (fun t => decide ((groupedPreds g (N + 1) t).length = 0)) = [N] := by
        rw [@List.filter_cons_of_pos _
            (fun t => decide ((groupedPreds g (N + 1) t).length = 0)) N [] hp,
          List.filter_nil]
      rw [this, hminN, hminN1, List.range_succ]

/-- Draining a queue of distinct untouched chain heads executes the chains
one after the other. -/
theorem batch_fold (g N : Nat) (hg : 0 < g) :
    ∀ (q : List Nat) (st : SchedState Unit),
      (∀ u, st.sched u = true) →
      (∀ r ∈ q, r < g ∧ r < N ∧ st.count r = 0) →
      (∀ r ∈ q, ∀ j, r ≤ j → j % g = r % g → j ∉ st.trace) →
      (∀ r ∈ q, ∀ j, r < j → j % g = r % g → j < N → st.count j = 1) →
      q.Nodup →
      (q.foldl (workerStep g N) st).trace
        = st.trace ++ q.flatMap (fun r => chainFrom g N N r) := by
  intro q
  induction q with
  | nil =>
    intro st _ _ _ _ _
    simp
  | cons r q ihq =>
    intro st hsch hready htr hcnt hnd
    have hrg : r < g := (hready r (List.mem_cons_self r q)).1
    have hrN : r < N := (hready r (List.mem_cons_self r q)).2.1
    have hr0 : st.count r = 0 := (hready r (List.mem_cons_self r q)).2.2
    have hrmod : r % g = r := Nat.mod_eq_of_lt hrg
    have hrtr : r ∉ st.trace :=
      htr r (List.mem_cons_self r q) r (Nat.le_refl r) rfl
    have hws : workerStep g N st r
        = execTask (groupedGraph g N) (fun _ s => s) N r st := by
      unfold workerStep
      rw [if_pos ⟨hr0, hsch r, hrtr⟩]
    rw [List.foldl_cons, hws]
    obtain ⟨htrace, hsched, hcount⟩ := exec_chain g N hg N r st hrN hsch
      (fun j hj hjm => htr r (List.mem_cons_self r q) j hj (by rw [hjm, hrmod]))
      (fun j hj hjm hjN =>
        hcnt r (List.mem_cons_self r q) j hj (by rw [hjm, hrmod]) hjN)
    have hrnotq : r ∉ q := (List.nodup_cons.mp hnd).1
    have hchain : ∀ j ∈ chainFrom g N N r, j % g = r := by
      intro j hj
      have := (chainFrom_mem g N N r j hj).2.1
      rw [this, hrmod]
    rw [ihq (execTask (groupedGraph g N) (fun _ s => s) N r st)
      (fun u => by rw [hsched u]; exact hsch u)
      (fun r' hr' => by
        have hr'g := (hready r' (List.mem_cons_of_mem r hr')).1
        have hr'N := (hready r' (List.mem_cons_of_mem r hr')).2.1
        have hr'r : r' ≠ r := fun h => hrnotq (h ▸ hr')
        refine ⟨hr'g, hr'N, ?_⟩
        rw [hcount r' (by rw [Nat.mod_eq_of_lt hr'g, hrmod]; exact hr'r)]
        exact (hready r' (List.mem_cons_of_mem r hr')).2.2)
      (fun r' hr' j hj hjm => by
        have hr'g := (hready r' (List.mem_cons_of_mem r hr')).1
        have hr'r : r' ≠ r := fun h => hrnotq (h ▸ hr')
        rw [htrace]
        intro hmem
        rcases List.mem_append.mp hmem with h | h
        · exact htr r' (List.mem_cons_of_mem r hr') j hj hjm h
        · have h1 := hchain j h
          have h2 : j % g = r' % g := hjm
          rw [Nat.mod_eq_of_lt hr'g] at h2
          exact hr'r (by omega)
      )
      (fun r' hr' j hj hjm hjN => by
        have hr'g := (hready r' (List.mem_cons_of_mem r hr')).1
        have hr'r : r' ≠ r := fun h => hrnotq (h ▸ hr')
        rw [hcount j (by
          rw [hjm, Nat.mod_eq_of_lt hr'g, hrmod]
          exact hr'r)]
        exact hcnt r' (List.mem_cons_of_mem r hr') j hj hjm hjN)
      (List.nodup_cons.mp hnd).2]
    rw [htrace, List.flatMap_cons, List.append_assoc]

/-- Shrinking a flatMap over an initial range when the tail contributes
nothing. -/
theorem flatMap_range_shrink (f : Nat → List Nat) :
    ∀ (b a : Nat), a ≤ b → (∀ r, a ≤ r → f r = []) →
      (List.range b).flatMap f = (List.range a).flatMap f := by
  intro b
  induction b with
  | zero =>
    intro a h _
    have : a = 0 := Nat.le_zero.mp h
    rw [this]
  | succ b ihb =>
    intro a h hf
    rcases Nat.lt_or_ge a (b + 1) with hlt | hge
    · have hab : a ≤ b := by omega
      rw [List.range_succ, List.flatMap_append, ihb a hab hf]
      simp [hf b hab]
    · have : a = b + 1 := by omega
      rw [this]

/-- C4.  Grouped batch execution: with num_groups = g > 0 chains wired as
task k preceding task k + g, a single worker executes the batch of N tasks
scheduled together exactly chain by chain: the trace is the concatenation,
over the residues r = 0 .. g-1, of the tasks congruent to r modulo g; each
chain lists exactly the indices below N congruent to its residue, in
strictly ascending order. -/
theorem c4_grouped_batch_order (g N : Nat) (hg : 0 < g) :
    (runBatch g N).trace
        = (List.range g).flatMap (fun r => chainFrom g N N r) ∧
    (∀ r, r < g → ∀ j, j ∈ chainFrom g N N r ↔ (j < N ∧ j % g = r)) ∧
    (∀ r, (chainFrom g N N r).Pairwise (fun a b => a < b)) := by
  refine ⟨?_, ?_, fun r => chainFrom_pairwise g N hg N r⟩
  · rw [runBatch, readyQueue_eq]
    have hfold := batch_fold g N hg (List.range (min g N)) (batchStart g N)
      (fun u => rfl)
      (fun r hr => by
        have hrmin : r < min g N := List.mem_range.mp hr
        refine ⟨by omega, by omega, ?_⟩
        show (groupedPreds g N r).length = 0
        unfold groupedPreds
        rw [if_neg (by omega)]
        rfl)
      (fun r hr j hj hjm => List.not_mem_nil j)
      (fun r hr j hj hjm hjN => by
        have hrmin : r < min g N := List.mem_range.mp hr
        have hrg : r < g := by omega
        rw [Nat.mod_eq_of_lt hrg] at hjm
        have hid := Nat.div_add_mod j g
        have hgj : g ≤ j := by
          rcases hq : j / g with _ | q
          · rw [hq] at hid; omega
          · rw [hq] at hid
            have : g * (q + 1) = g * q + g := by ring
            omega
        show (groupedPreds g N j).length = 1
        unfold groupedPreds
        rw [if_pos ⟨hgj, hjN⟩]
        rfl)
      (List.nodup_range (min g N))
    rw [hfold]
    have hempty : ∀ r, N ≤ r → chainFrom g N N r = [] := fun r hr =>
      chainFrom_of_ge g N N r hr
    rcases Nat.le_total g N with h | h
    · rw [Nat.min_eq_left h]
      rfl
    · rw [Nat.min_eq_right h]
      rw [flatMap_range_shrink (fun r => chainFrom g N N r) g N h hempty]
      rfl
  · intro r hrg j
    constructor
    · intro hj
      obtain ⟨hkj, hmod, hjN⟩ := chainFrom_mem g N N r j hj
      exact ⟨hjN, by rw [hmod, Nat.mod_eq_of_lt hrg]⟩
    · rintro ⟨hjN, hmod⟩
      have hmodle : j % g ≤ j := Nat.mod_le j g
      refine chainFrom_mem_of g N hg N r j hjN (by omega) ?_ ?_
      · rw [Nat.mod_eq_of_lt hrg]; exact hmod
      · have hN : N ≤ g * N := Nat.le_mul_of_pos_left N hg
        omega

/-- C4 witness: the concrete batch of 5 tasks in 2 groups. -/
theorem c4_grouped_batch_witness :
    (runBatch 2 5).trace = (List.range 2).flatMap (fun r => chainFrom 2 5 5 r) :=
  (c4_grouped_batch_order 2 5 (by decide)).1

end HyriseSpec
